import Mathlib

/-!
Verification of the stegoscale LSB steganography codec
(`src/utils/steganography.ts`) and the capacity helper (`src/App.tsx`).

The pixel buffer (`Uint8ClampedArray` of RGBA bytes) is modelled as a
`List Nat` of byte values; a JS string is modelled as the `List Nat` of its
UTF-16 code units (`charCodeAt` values).  JS binary strings (`'0'`/`'1'`
characters) are modelled as `List Bool`, most-significant bit first, matching
`Number.prototype.toString(2)` / `parseInt(s, 2)`.  Bounded recursions that JS
expresses as `while` loops over a shrinking string are given an explicit fuel
argument so that every definition is executable by the kernel.
-/

namespace Stego

/-- Value of `parseInt(s, 2)` on a binary string, MSB first (`parseInt('', 2)` is `NaN`;
the sole caller reaching that case feeds the result into a guard that treats
`NaN` and `0` identically, so the empty list is mapped to `0` here). -/
def bitsToNat (bs : List Bool) : Nat :=
  bs.foldl (fun a b => 2 * a + (if b then 1 else 0)) 0

/-- Fuel-indexed core of `n.toString(2)`: binary digits of `n`, MSB first,
empty for `n = 0`.  Correct whenever `n ≤ fuel`. -/
def natBinAux : Nat → Nat → List Bool
  | 0, _ => []
  | fuel + 1, n =>
    if n = 0 then [] else natBinAux fuel (n / 2) ++ [decide (n % 2 = 1)]

/-- Rendering of `n.toString(2)` as a bit list, MSB first; `(0).toString(2) = "0"`. -/
def natToBin (n : Nat) : List Bool :=
  if n = 0 then [false] else natBinAux n n

/-- Padding `s.padStart(w, '0')` on a binary string. -/
def padStartB (w : Nat) (bs : List Bool) : List Bool :=
  List.replicate (w - bs.length) false ++ bs

/-- Padding `s.padEnd(w, '0')` on a binary string. -/
def padEndB (w : Nat) (bs : List Bool) : List Bool :=
  bs ++ List.replicate (w - bs.length) false

/-- Source helper `stringToBin`: each character code rendered as
`charCodeAt(0).toString(2).padStart(8, '0')`, concatenated. -/
def stringToBin (s : List Nat) : List Bool :=
  (s.map fun c => padStartB 8 (natToBin c)).flatten

/-- The `fullBinary` string built inside `encodeLSB`: the 32-bit length header
`message.length.toString(2).padStart(32, '0')` followed by `stringToBin message`. -/
def fullBinary (message : List Nat) : List Bool :=
  padStartB 32 (natToBin message.length) ++ stringToBin message

/-- The embedding `for` loop of `encodeLSB`: walk the byte list carrying the
absolute index `i` (for the alpha test `(i + 1) % 4 === 0`) and the not yet
consumed part of `fullBinary`; the loop guard `bitIndex < fullBinary.length`
is `bits ≠ []`.  Each written byte is
`(data[i] & (255 << k)) | parseInt(chunk.padEnd(k, '0'), 2)`. -/
def encodeLoop (k : Nat) : List Nat → Nat → List Bool → List Nat
  | [], _, _ => []
  | d :: rest, i, bits =>
    if bits = [] then d :: rest
    else if (i + 1) % 4 = 0 then d :: encodeLoop k rest (i + 1) bits
    else ((d &&& (255 <<< k)) ||| bitsToNat (padEndB k (bits.take k))) ::
      encodeLoop k rest (i + 1) (bits.drop k)

/-- The record returned by `encodeLSB`; `dataUrl` (a lossless PNG serialization
of the mutated buffer) is modelled by the mutated buffer itself. -/
structure SteganoResult where
  data : List Nat
  capacity : Nat
  messageLength : Nat
deriving Repr

/-- Source function `encodeLSB`: embed `fullBinary message` into the low `k` bits of the
non-alpha bytes of `data`, and report
`capacity = Math.floor((data.length * 3 / 4) * k / 8)` and `message.length`. -/
def encodeLSB (data : List Nat) (message : List Nat) (k : Nat) : SteganoResult :=
  { data := encodeLoop k data 0 (fullBinary message)
    capacity := data.length * 3 / 4 * k / 8
    messageLength := message.length }

/-- The three descriptive decode failures of `decodeLSB`. -/
inductive DecodeError where
  | tooSmall
  | invalidHeader
  | truncated
deriving DecidableEq, Repr

/-- One extraction `while` loop of `decodeLSB`
(`while (binaryString.length < target && i < data.length)`): append the low
`k` bits `(data[i] & ((1 << k) - 1)).toString(2).padStart(k, '0')` of each
non-alpha byte.  Returns the accumulated bits together with the remaining
bytes and the index reached, so that phase 2 can resume the same walk. -/
def phase (k target : Nat) : List Nat → Nat → List Bool → List Bool × List Nat × Nat
  | [], i, acc => (acc, [], i)
  | d :: rest, i, acc =>
    if target ≤ acc.length then (acc, d :: rest, i)
    else if (i + 1) % 4 = 0 then phase k target rest (i + 1) acc
    else phase k target rest (i + 1) (acc ++ padStartB k (natToBin (d &&& (2 ^ k - 1))))

/-- Fuel-indexed core of `binToString`: split into 8-bit groups from the left
(the regex `.{1,8}`) and take each group's value.  Correct whenever
`bs.length ≤ fuel`. -/
def binToStringAux : Nat → List Bool → List Nat
  | 0, _ => []
  | fuel + 1, bs =>
    if bs = [] then [] else bitsToNat (bs.take 8) :: binToStringAux fuel (bs.drop 8)

/-- Source helper `binToString`: regroup a bit string into 8-bit chunks and convert each
chunk to a character code (`String.fromCharCode(parseInt(byte, 2))`). -/
def binToString (bs : List Bool) : List Nat :=
  binToStringAux bs.length bs

/-- Source function `decodeLSB`: two-phase extraction with the size guard, header validation
and truncation check of the source. -/
def decodeLSB (data : List Nat) (k : Nat) : Except DecodeError (List Nat) :=
  let totalAvailableBits := data.length / 4 * 3 * k
  if totalAvailableBits < 32 then .error .tooSmall
  else
    let p1 := phase k 32 data 0 []
    let messageLength := bitsToNat (p1.1.take 32)
    let maxPossibleBytes := (totalAvailableBits - 32) / 8
    if messageLength = 0 ∨ maxPossibleBytes < messageLength then .error .invalidHeader
    else
      let requiredBits := 32 + messageLength * 8
      let p2 := phase k requiredBits p1.2.1 p1.2.2 p1.1
      if p2.1.length < requiredBits then .error .truncated
      else .ok (binToString ((p2.1.take requiredBits).drop 32))

/-- The capacity computation of `App.tsx` (`useEffect` on lines 38–46), with
`width`/`height` the dimensions of the scaled canvas:
`Math.max(0, Math.floor(pixels * 3 * k / 8) - 4)`.  Computed in `Int` because
the JS subtraction can go negative before the `max`. -/
def capacityBytes (width height k : Nat) : Int :=
  let pixels := width * height
  let totalBits := pixels * 3 * k
  max 0 ((totalBits : Int) / 8 - 4)

/-- Number of non-alpha byte indices among `i, i+1, …, i+n-1`: the positions
the embedding/extraction walks actually touch. -/
def nonAlphaCount (i : Nat) : Nat → Nat
  | 0 => 0
  | n + 1 => (if (i + 1) % 4 = 0 then 0 else 1) + nonAlphaCount (i + 1) n

/-- All bits the decoder's walk can extract from `data`, starting the index
walk at `i`: the low `k` bits, MSB first, of every non-alpha byte. -/
def extractAll (k : Nat) : List Nat → Nat → List Bool
  | [], _ => []
  | d :: rest, i =>
    if (i + 1) % 4 = 0 then extractAll k rest (i + 1)
    else padStartB k (natToBin (d &&& (2 ^ k - 1))) ++ extractAll k rest (i + 1)

/-! ### Bit-string arithmetic -/

theorem foldl_bitsToNat (bs : List Bool) (a : Nat) :
    bs.foldl (fun x b => 2 * x + (if b then 1 else 0)) a =
      a * 2 ^ bs.length + bitsToNat bs := by
  induction bs generalizing a with
  | nil => simp [bitsToNat]
  | cons b bs ih =>
    have hb : bitsToNat (b :: bs) = (if b then 1 else 0) * 2 ^ bs.length + bitsToNat bs := by
      show List.foldl _ _ (b :: bs) = _
      rw [List.foldl_cons, ih]
      simp
    rw [List.foldl_cons, ih, hb, List.length_cons, pow_succ]
    ring

theorem bitsToNat_cons (b : Bool) (bs : List Bool) :
    bitsToNat (b :: bs) = (if b then 1 else 0) * 2 ^ bs.length + bitsToNat bs := by
  show List.foldl _ _ (b :: bs) = _
  rw [List.foldl_cons, foldl_bitsToNat]
  simp

theorem bitsToNat_append (xs ys : List Bool) :
    bitsToNat (xs ++ ys) = bitsToNat xs * 2 ^ ys.length + bitsToNat ys := by
  show List.foldl _ _ (xs ++ ys) = _
  rw [List.foldl_append, foldl_bitsToNat]
  rfl

theorem bitsToNat_lt (bs : List Bool) : bitsToNat bs < 2 ^ bs.length := by
  induction bs with
  | nil => simp [bitsToNat]
  | cons b bs ih =>
    rw [bitsToNat_cons, List.length_cons, pow_succ]
    rcases b with _ | _ <;> simp <;> omega

theorem bitsToNat_replicate_false (n : Nat) :
    bitsToNat (List.replicate n false) = 0 := by
  induction n with
  | zero => rfl
  | succ n ih => rw [List.replicate_succ, bitsToNat_cons]; simpa using ih

theorem bitsToNat_padStartB (w : Nat) (bs : List Bool) :
    bitsToNat (padStartB w bs) = bitsToNat bs := by
  rw [padStartB, bitsToNat_append, bitsToNat_replicate_false]
  simp

theorem padStartB_length (w : Nat) (bs : List Bool) :
    (padStartB w bs).length = max w bs.length := by
  simp [padStartB]
  omega

theorem padEndB_length (w : Nat) (bs : List Bool) :
    (padEndB w bs).length = max w bs.length := by
  simp [padEndB]
  omega

theorem natBinAux_val : ∀ fuel n, n ≤ fuel → bitsToNat (natBinAux fuel n) = n := by
  intro fuel
  induction fuel with
  | zero => intro n hn; interval_cases n; rfl
  | succ fuel ih =>
    intro n hn
    by_cases h0 : n = 0
    · simp [natBinAux, h0]; rfl
    · rw [natBinAux, if_neg h0, bitsToNat_append, ih (n / 2) (by omega)]
      have : bitsToNat [decide (n % 2 = 1)] = n % 2 := by
        rcases Nat.mod_two_eq_zero_or_one n with h | h <;> simp [h, bitsToNat]
      rw [this]
      simp
      omega

theorem natBinAux_length_le : ∀ fuel n w, n ≤ fuel → n < 2 ^ w →
    (natBinAux fuel n).length ≤ w := by
  intro fuel
  induction fuel with
  | zero => intro n w hn _; interval_cases n; simp [natBinAux]
  | succ fuel ih =>
    intro n w hn hw
    by_cases h0 : n = 0
    · simp [natBinAux, h0]
    · rw [natBinAux, if_neg h0]
      have hw1 : 1 ≤ w := by
        by_contra h
        interval_cases w <;> omega
      have hdiv : n / 2 < 2 ^ (w - 1) := by
        have h2 : 2 ^ w = 2 ^ (w - 1) * 2 := by
          rw [← pow_succ]
          congr 1
          omega
        omega
      have := ih (n / 2) (w - 1) (by omega) hdiv
      simp only [List.length_append, List.length_cons, List.length_nil]
      omega

theorem natToBin_val (n : Nat) : bitsToNat (natToBin n) = n := by
  by_cases h0 : n = 0
  · simp [natToBin, h0, bitsToNat]
  · rw [natToBin, if_neg h0]
    exact natBinAux_val n n le_rfl

theorem natToBin_length_le (n w : Nat) (hw : 1 ≤ w) (hn : n < 2 ^ w) :
    (natToBin n).length ≤ w := by
  by_cases h0 : n = 0
  · simp [natToBin, h0]; omega
  · rw [natToBin, if_neg h0]
    exact natBinAux_length_le n n w le_rfl hn

theorem bitsToNat_inj : ∀ (bs cs : List Bool), bs.length = cs.length →
    bitsToNat bs = bitsToNat cs → bs = cs := by
  intro bs
  induction bs with
  | nil =>
    intro cs hlen _
    exact (List.eq_nil_of_length_eq_zero hlen.symm).symm
  | cons b bs ih =>
    intro cs hlen hval
    rcases cs with _ | ⟨c, cs⟩
    · simp at hlen
    · have hlen' : bs.length = cs.length := by simpa using hlen
      rw [bitsToNat_cons, bitsToNat_cons, hlen'] at hval
      have h1 := bitsToNat_lt bs
      have h2 := bitsToNat_lt cs
      rw [hlen'] at h1
      have hbc : b = c := by
        rcases b with _ | _ <;> rcases c with _ | _ <;> simp_all <;> omega
      subst hbc
      have : bitsToNat bs = bitsToNat cs := by
        rcases b with _ | _ <;> simp at hval <;> omega
      rw [ih cs hlen' this]

/-- Writing `k` bits into a byte and reading them back, rendered at width `k`,
returns exactly the written chunk. -/
theorem chunk_repr (bs : List Bool) (w : Nat) (hlen : bs.length = w) (hw : 1 ≤ w) :
    padStartB w (natToBin (bitsToNat bs)) = bs := by
  have hval : bitsToNat bs < 2 ^ w := hlen ▸ bitsToNat_lt bs
  apply bitsToNat_inj
  · rw [padStartB_length, hlen, Nat.max_eq_left (natToBin_length_le _ _ hw hval)]
  · rw [bitsToNat_padStartB, natToBin_val]

/-! ### Bitwise arithmetic on bytes -/

theorem land_two_pow_sub_one (d k : Nat) : d &&& (2 ^ k - 1) = d % 2 ^ k := by
  apply Nat.eq_of_testBit_eq
  intro i
  simp only [Nat.testBit_and, Nat.testBit_two_pow_sub_one, Nat.testBit_mod_two_pow]
  rw [Bool.and_comm]

/-- The low `k` bits of the written byte are the embedded value. -/
theorem writeByte_mod (d k v : Nat) (hv : v < 2 ^ k) :
    ((d &&& (255 <<< k)) ||| v) % 2 ^ k = v := by
  have h255 : (255 : Nat) = 2 ^ 8 - 1 := rfl
  conv_lhs => rw [← land_two_pow_sub_one]
  conv_rhs => rw [← Nat.mod_eq_of_lt hv, ← land_two_pow_sub_one]
  apply Nat.eq_of_testBit_eq
  intro i
  simp only [Nat.testBit_and, Nat.testBit_or, Nat.testBit_shiftLeft, h255,
    Nat.testBit_two_pow_sub_one]
  by_cases hik : i < k
  · have : ¬ (i ≥ k) := by omega
    simp [hik, this]
  · simp [hik]

/-- The upper bits of the written byte agree with those of the original byte
(for genuine bytes `d < 256`). -/
theorem writeByte_div (d k v : Nat) (hd : d < 256) (hv : v < 2 ^ k) :
    ((d &&& (255 <<< k)) ||| v) / 2 ^ k = d / 2 ^ k := by
  have h255 : (255 : Nat) = 2 ^ 8 - 1 := rfl
  rw [← Nat.shiftRight_eq_div_pow, ← Nat.shiftRight_eq_div_pow]
  apply Nat.eq_of_testBit_eq
  intro i
  rw [Nat.testBit_shiftRight, Nat.testBit_shiftRight]
  simp only [Nat.testBit_or, Nat.testBit_and, Nat.testBit_shiftLeft, h255,
    Nat.testBit_two_pow_sub_one]
  have hvbit : v.testBit (k + i) = false :=
    Nat.testBit_lt_two_pow (lt_of_lt_of_le hv (Nat.pow_le_pow_right (by omega) (by omega)))
  by_cases hi8 : i < 8
  · have hge : k + i ≥ k := by omega
    have h1 : k + i - k = i := by omega
    simp [hvbit, hge, h1, hi8]
  · have hdbit : d.testBit (k + i) = false := by
      apply Nat.testBit_lt_two_pow
      calc d < 256 := hd
        _ = 2 ^ 8 := rfl
        _ ≤ 2 ^ (k + i) := Nat.pow_le_pow_right (by omega) (by omega)
    simp [hvbit, hdbit]

/-! ### Counting the walked positions -/

theorem nonAlphaCount_succ (i n : Nat) :
    nonAlphaCount i (n + 1) =
      (if (i + 1) % 4 = 0 then 0 else 1) + nonAlphaCount (i + 1) n := rfl

/-- Over any whole number of RGBA pixels, the walk touches exactly three bytes
per pixel. -/
theorem nonAlphaCount_mul4 : ∀ m i, i % 4 = 0 → nonAlphaCount i (4 * m) = 3 * m := by
  intro m
  induction m with
  | zero => intro i _; rfl
  | succ m ih =>
    intro i hi
    have h4 : 4 * (m + 1) = 4 * m + 1 + 1 + 1 + 1 := by ring
    rw [h4, nonAlphaCount_succ, nonAlphaCount_succ, nonAlphaCount_succ, nonAlphaCount_succ,
      ih (i + 1 + 1 + 1 + 1) (by omega)]
    have h1 : (i + 1) % 4 ≠ 0 := by omega
    have h2 : (i + 1 + 1) % 4 ≠ 0 := by omega
    have h3 : (i + 1 + 1 + 1) % 4 ≠ 0 := by omega
    have h4' : (i + 1 + 1 + 1 + 1) % 4 = 0 := by omega
    rw [if_neg h1, if_neg h2, if_neg h3, if_pos h4']
    ring

/-- Each extracted chunk has exactly `k` bits. -/
theorem extract_chunk_length (d k : Nat) (hk : 1 ≤ k) :
    (padStartB k (natToBin (d &&& (2 ^ k - 1)))).length = k := by
  rw [padStartB_length]
  apply Nat.max_eq_left
  apply natToBin_length_le _ _ hk
  rw [land_two_pow_sub_one]
  exact Nat.mod_lt _ (by positivity)

theorem extractAll_length (k : Nat) (hk : 1 ≤ k) :
    ∀ (data : List Nat) (i : Nat),
      (extractAll k data i).length = k * nonAlphaCount i data.length := by
  intro data
  induction data with
  | nil => intro i; simp [extractAll, nonAlphaCount]
  | cons d rest ih =>
    intro i
    rw [List.length_cons, nonAlphaCount_succ]
    by_cases h : (i + 1) % 4 = 0
    · rw [extractAll, if_pos h, ih, if_pos h]
      ring
    · rw [extractAll, if_neg h, if_neg h, List.length_append,
        extract_chunk_length d k hk, ih]
      ring

theorem encodeLoop_length (k : Nat) : ∀ (data : List Nat) (i : Nat) (bits : List Bool),
    (encodeLoop k data i bits).length = data.length := by
  intro data
  induction data with
  | nil => intro i bits; rfl
  | cons d rest ih =>
    intro i bits
    rw [encodeLoop]
    by_cases hb : bits = []
    · rw [if_pos hb]
    · rw [if_neg hb]
      by_cases h : (i + 1) % 4 = 0
      · rw [if_pos h, List.length_cons, List.length_cons, ih]
      · rw [if_neg h, List.length_cons, List.length_cons, ih]

/-! ### The extraction loop against the full walk -/

/-- Both phases of `decodeLSB` only ever accumulate a prefix of the full-walk
extraction, and if a phase stops short of its target it has exhausted the
buffer (so its accumulator is the whole extraction). -/
theorem phase_spec (k t : Nat) : ∀ (data : List Nat) (i : Nat) (acc : List Bool),
    (phase k t data i acc).1 ++
        extractAll k (phase k t data i acc).2.1 (phase k t data i acc).2.2 =
      acc ++ extractAll k data i
    ∧ ((phase k t data i acc).1.length < t → (phase k t data i acc).2.1 = []) := by
  intro data
  induction data with
  | nil =>
    intro i acc
    constructor
    · simp [phase, extractAll]
    · intro _; rfl
  | cons d rest ih =>
    intro i acc
    by_cases hstop : t ≤ acc.length
    · rw [phase, if_pos hstop]
      exact ⟨rfl, fun h => absurd (by simpa using h : acc.length < t) (by omega)⟩
    · by_cases h : (i + 1) % 4 = 0
      · rw [phase, if_neg hstop, if_pos h]
        refine ⟨?_, (ih (i + 1) acc).2⟩
        rw [(ih (i + 1) acc).1, extractAll, if_pos h]
      · rw [phase, if_neg hstop, if_neg h]
        refine ⟨?_, (ih (i + 1) _).2⟩
        rw [(ih (i + 1) _).1, extractAll, if_neg h, List.append_assoc]

/-- Single-pass characterization of `decodeLSB`: the incremental two-phase
extraction is equivalent to deciding everything over the full-walk bits
`extractAll k data 0`. -/
def decodeSpec (data : List Nat) (k : Nat) : Except DecodeError (List Nat) :=
  let totalAvailableBits := data.length / 4 * 3 * k
  if totalAvailableBits < 32 then .error .tooSmall
  else
    let E := extractAll k data 0
    let messageLength := bitsToNat (E.take 32)
    let maxPossibleBytes := (totalAvailableBits - 32) / 8
    if messageLength = 0 ∨ maxPossibleBytes < messageLength then .error .invalidHeader
    else
      let requiredBits := 32 + messageLength * 8
      if E.length < requiredBits then .error .truncated
      else .ok (binToString ((E.take requiredBits).drop 32))

theorem decodeLSB_eq_spec (data : List Nat) (k : Nat) :
    decodeLSB data k = decodeSpec data k := by
  obtain ⟨h1a, h1b⟩ := phase_spec k 32 data 0 []
  rw [List.nil_append] at h1a
  have htake1 : (phase k 32 data 0 []).1.take 32 = (extractAll k data 0).take 32 := by
    by_cases hlen : 32 ≤ (phase k 32 data 0 []).1.length
    · conv_rhs => rw [← h1a]
      rw [List.take_append_eq_append_take]
      have h0 : 32 - (phase k 32 data 0 []).1.length = 0 := by omega
      rw [h0, List.take_zero, List.append_nil]
    · have hr : (phase k 32 data 0 []).2.1 = [] := h1b (by omega)
      conv_rhs => rw [← h1a, hr]
      simp [extractAll]
  by_cases hsmall : data.length / 4 * 3 * k < 32
  · simp only [decodeLSB, decodeSpec, if_pos hsmall]
  · simp only [decodeLSB, decodeSpec, if_neg hsmall, htake1]
    by_cases hhdr : bitsToNat ((extractAll k data 0).take 32) = 0 ∨
        (data.length / 4 * 3 * k - 32) / 8 < bitsToNat ((extractAll k data 0).take 32)
    · simp only [if_pos hhdr]
    · simp only [if_neg hhdr]
      obtain ⟨h2a, h2b⟩ :=
        phase_spec k (32 + bitsToNat ((extractAll k data 0).take 32) * 8)
          (phase k 32 data 0 []).2.1 (phase k 32 data 0 []).2.2 (phase k 32 data 0 []).1
      rw [h1a] at h2a
      set L := bitsToNat ((extractAll k data 0).take 32) with hL
      set P2 := phase k (32 + L * 8) (phase k 32 data 0 []).2.1 (phase k 32 data 0 []).2.2
        (phase k 32 data 0 []).1 with hP2
      have htrunc : P2.1.length < 32 + L * 8 ↔ (extractAll k data 0).length < 32 + L * 8 := by
        constructor
        · intro h
          have hr : P2.2.1 = [] := h2b h
          rw [← h2a, hr]
          simpa [extractAll] using h
        · intro h
          have : P2.1.length ≤ (extractAll k data 0).length := by
            rw [← h2a, List.length_append]
            omega
          omega
      by_cases ht : P2.1.length < 32 + L * 8
      · simp only [if_pos ht, if_pos (htrunc.mp ht)]
      · have ht' : ¬ (extractAll k data 0).length < 32 + L * 8 := fun h => ht (htrunc.mpr h)
        simp only [if_neg ht, if_neg ht']
        have htk : P2.1.take (32 + L * 8) = (extractAll k data 0).take (32 + L * 8) := by
          conv_rhs => rw [← h2a]
          rw [List.take_append_eq_append_take]
          have h0 : 32 + L * 8 - P2.1.length = 0 := by omega
          rw [h0, List.take_zero, List.append_nil]
        rw [htk]

/-! ### Extraction inverts embedding -/

/-- The value written into a byte's low bits is the value of its `k`-bit
chunk of the remaining bit-sequence. -/
theorem written_chunk_lt (k : Nat) (bits : List Bool) :
    bitsToNat (padEndB k (bits.take k)) < 2 ^ k := by
  have h := bitsToNat_lt (padEndB k (bits.take k))
  have hlen : (padEndB k (bits.take k)).length = k := by
    rw [padEndB_length]
    have : (bits.take k).length ≤ k := by
      rw [List.length_take]; omega
    omega
  rwa [hlen] at h

/-- Re-extracting from an encoded buffer returns the embedded bit-sequence,
as long as the walk offers at least `bits.length` bit slots. -/
theorem extract_encode (k : Nat) (hk : 1 ≤ k) :
    ∀ (data : List Nat) (i : Nat) (bits : List Bool),
      bits.length ≤ k * nonAlphaCount i data.length →
      (extractAll k (encodeLoop k data i bits) i).take bits.length = bits := by
  intro data
  induction data with
  | nil =>
    intro i bits hcap
    have : bits.length = 0 := by
      simpa [nonAlphaCount] using hcap
    rw [List.eq_nil_of_length_eq_zero this]
    simp
  | cons d rest ih =>
    intro i bits hcap
    by_cases hb : bits = []
    · subst hb; simp
    · rw [encodeLoop, if_neg hb]
      by_cases halpha : (i + 1) % 4 = 0
      · rw [if_pos halpha, extractAll, if_pos halpha]
        apply ih
        rw [List.length_cons, nonAlphaCount_succ, if_pos halpha] at hcap
        simpa using hcap
      · rw [if_neg halpha, extractAll, if_neg halpha]
        have hv := written_chunk_lt k bits
        have hchunk :
            padStartB k (natToBin
              ((d &&& 255 <<< k ||| bitsToNat (padEndB k (bits.take k))) &&& (2 ^ k - 1))) =
            padEndB k (bits.take k) := by
          rw [land_two_pow_sub_one, writeByte_mod _ _ _ hv]
          apply chunk_repr
          · rw [padEndB_length]
            have : (bits.take k).length ≤ k := by rw [List.length_take]; omega
            omega
          · exact hk
        rw [hchunk]
        have hcap' : bits.length - k ≤ k * nonAlphaCount (i + 1) rest.length := by
          rw [List.length_cons, nonAlphaCount_succ, if_neg halpha, Nat.mul_add, Nat.mul_one]
            at hcap
          omega
        have ihd := ih (i + 1) (bits.drop k) (by rwa [List.length_drop])
        by_cases hlen : k ≤ bits.length
        · have htk : (bits.take k).length = k := by rw [List.length_take]; omega
          have hpe : padEndB k (bits.take k) = bits.take k := by
            rw [padEndB, htk, Nat.sub_self, List.replicate_zero, List.append_nil]
          rw [hpe, List.take_append_eq_append_take, htk]
          have h1 : bits.length ⊓ k = k := by omega
          rw [List.take_take, h1]
          rw [List.length_drop] at ihd
          rw [ihd]
          exact List.take_append_drop k bits
        · have htk : bits.take k = bits := List.take_of_length_le (by omega)
          rw [padEndB, htk, List.append_assoc, List.take_append_eq_append_take,
            List.take_length, Nat.sub_self, List.take_zero, List.append_nil]

/-! ### Frame effect of the embedding loop -/

/-- Bytewise effect of the embedding loop on a buffer of genuine bytes:
alpha bytes are untouched, the upper `8 - k` bits of every byte are untouched,
and every byte reached only after the bit-sequence is exhausted is untouched. -/
theorem encodeLoop_getD (k : Nat) :
    ∀ (data : List Nat) (i : Nat) (bits : List Bool) (j : Nat),
      (∀ b ∈ data, b < 256) →
      ((i + j + 1) % 4 = 0 → (encodeLoop k data i bits).getD j 0 = data.getD j 0)
      ∧ (encodeLoop k data i bits).getD j 0 / 2 ^ k = data.getD j 0 / 2 ^ k
      ∧ (bits.length ≤ k * nonAlphaCount i j →
          (encodeLoop k data i bits).getD j 0 = data.getD j 0) := by
  intro data
  induction data with
  | nil =>
    intro i bits j _
    exact ⟨fun _ => rfl, rfl, fun _ => rfl⟩
  | cons d rest ih =>
    intro i bits j h256
    by_cases hb : bits = []
    · rw [encodeLoop, if_pos hb]
      exact ⟨fun _ => rfl, rfl, fun _ => rfl⟩
    · rw [encodeLoop, if_neg hb]
      by_cases halpha : (i + 1) % 4 = 0
      · rw [if_pos halpha]
        rcases j with _ | j
        · exact ⟨fun _ => rfl, rfl, fun _ => rfl⟩
        · have ihj := ih (i + 1) bits j (fun b hb => h256 b (List.mem_cons_of_mem d hb))
          rw [List.getD_cons_succ, List.getD_cons_succ]
          refine ⟨fun ha => ihj.1 (by omega), ihj.2.1, fun hc => ihj.2.2 ?_⟩
          rwa [nonAlphaCount_succ, if_pos halpha, Nat.zero_add] at hc
      · rw [if_neg halpha]
        rcases j with _ | j
        · refine ⟨fun ha => absurd ha halpha, ?_, fun hc => ?_⟩
          · rw [List.getD_cons_zero, List.getD_cons_zero]
            exact writeByte_div d k _ (h256 d (List.mem_cons_self d rest))
              (written_chunk_lt k bits)
          · exfalso
            have hpos : 0 < bits.length := List.length_pos.mpr hb
            have hc0 : nonAlphaCount i 0 = 0 := rfl
            rw [hc0, Nat.mul_zero, Nat.le_zero] at hc
            omega
        · have ihj := ih (i + 1) (bits.drop k) j
            (fun b hb => h256 b (List.mem_cons_of_mem d hb))
          rw [List.getD_cons_succ, List.getD_cons_succ]
          refine ⟨fun ha => ihj.1 (by omega), ihj.2.1, fun hc => ihj.2.2 ?_⟩
          rw [nonAlphaCount_succ, if_neg halpha, Nat.mul_add, Nat.mul_one] at hc
          rw [List.length_drop]
          omega

/-! ### Character ↔ bit-string conversions -/

theorem stringToBin_cons (c : Nat) (cs : List Nat) :
    stringToBin (c :: cs) = padStartB 8 (natToBin c) ++ stringToBin cs := by
  simp [stringToBin]

theorem char_chunk_length (c : Nat) (hc : c < 256) :
    (padStartB 8 (natToBin c)).length = 8 := by
  rw [padStartB_length]
  exact Nat.max_eq_left (natToBin_length_le c 8 (by omega) hc)

theorem stringToBin_length (cs : List Nat) (hc : ∀ c ∈ cs, c < 256) :
    (stringToBin cs).length = 8 * cs.length := by
  induction cs with
  | nil => rfl
  | cons c cs ih =>
    rw [stringToBin_cons, List.length_append,
      char_chunk_length c (hc c (List.mem_cons_self c cs)),
      ih (fun x hx => hc x (List.mem_cons_of_mem c hx)), List.length_cons]
    ring

theorem fullBinary_length (msg : List Nat) (hlt : msg.length < 2 ^ 32)
    (hc : ∀ c ∈ msg, c < 256) :
    (fullBinary msg).length = 32 + 8 * msg.length := by
  rw [fullBinary, List.length_append, stringToBin_length msg hc, padStartB_length,
    Nat.max_eq_left (natToBin_length_le _ 32 (by omega) hlt)]

theorem binToStringAux_fuel : ∀ f1 f2 (bs : List Bool), bs.length ≤ f1 → bs.length ≤ f2 →
    binToStringAux f1 bs = binToStringAux f2 bs := by
  intro f1
  induction f1 with
  | zero =>
    intro f2 bs h1 _
    have : bs = [] := List.eq_nil_of_length_eq_zero (by omega)
    subst this
    rcases f2 with _ | f2 <;> simp [binToStringAux]
  | succ f1 ih =>
    intro f2 bs h1 h2
    by_cases hbs : bs = []
    · subst hbs
      rcases f2 with _ | f2 <;> simp [binToStringAux]
    · have hpos : 0 < bs.length := List.length_pos.mpr hbs
      rcases f2 with _ | f2
      · omega
      · rw [binToStringAux, binToStringAux, if_neg hbs, if_neg hbs,
          ih f2 (bs.drop 8) (by rw [List.length_drop]; omega) (by rw [List.length_drop]; omega)]

theorem binToString_block (c : Nat) (hc : c < 256) (S : List Bool) :
    binToString (padStartB 8 (natToBin c) ++ S) = c :: binToString S := by
  have hlen : (padStartB 8 (natToBin c)).length = 8 := char_chunk_length c hc
  have hne : padStartB 8 (natToBin c) ++ S ≠ [] := by
    intro h
    have := congrArg List.length h
    rw [List.length_append, hlen] at this
    simp at this
  rw [binToString]
  obtain ⟨f, hf⟩ : ∃ f, (padStartB 8 (natToBin c) ++ S).length = f + 1 :=
    ⟨7 + S.length, by rw [List.length_append, hlen]; omega⟩
  rw [hf, binToStringAux, if_neg hne]
  have htake : (padStartB 8 (natToBin c) ++ S).take 8 = padStartB 8 (natToBin c) :=
    List.take_left' hlen
  have hdrop : (padStartB 8 (natToBin c) ++ S).drop 8 = S :=
    List.drop_left' hlen
  rw [htake, hdrop, bitsToNat_padStartB, natToBin_val]
  congr 1
  apply binToStringAux_fuel
  · rw [List.length_append, hlen] at hf
    omega
  · rfl

theorem binToString_stringToBin (cs : List Nat) (hc : ∀ c ∈ cs, c < 256) :
    binToString (stringToBin cs) = cs := by
  induction cs with
  | nil => rfl
  | cons c cs ih =>
    rw [stringToBin_cons, binToString_block c (hc c (List.mem_cons_self c cs)),
      ih (fun x hx => hc x (List.mem_cons_of_mem c hx))]

theorem binToString_length_eight : ∀ (L : Nat) (bs : List Bool), bs.length = 8 * L →
    (binToString bs).length = L := by
  intro L
  induction L with
  | zero =>
    intro bs h
    have : bs = [] := List.eq_nil_of_length_eq_zero (by omega)
    subst this
    rfl
  | succ L ih =>
    intro bs h
    have hne : bs ≠ [] := by
      intro hh
      subst hh
      simp at h
    rw [binToString]
    obtain ⟨f, hf⟩ : ∃ f, bs.length = f + 1 := ⟨8 * L + 7, by omega⟩
    rw [hf, binToStringAux, if_neg hne]
    have hd : (bs.drop 8).length = 8 * L := by rw [List.length_drop]; omega
    have heq : binToStringAux f (bs.drop 8) = binToString (bs.drop 8) := by
      apply binToStringAux_fuel
      · rw [List.length_drop]; omega
      · rfl
    rw [List.length_cons, heq, ih (bs.drop 8) hd]

/-! ### RGBA buffers -/

/-- On a whole-pixel buffer the walk offers exactly
`pixelCount * 3 * k = totalAvailableBits` bit slots. -/
theorem nonAlphaCount_rgba (n k : Nat) (h4 : n % 4 = 0) :
    k * nonAlphaCount 0 n = n / 4 * 3 * k := by
  have h : n = 4 * (n / 4) := by omega
  conv_lhs => rw [h, nonAlphaCount_mul4 _ 0 rfl]
  ring

theorem extractAll_length_rgba (data : List Nat) (k : Nat) (hk : 1 ≤ k)
    (h4 : data.length % 4 = 0) :
    (extractAll k data 0).length = data.length / 4 * 3 * k := by
  rw [extractAll_length k hk, nonAlphaCount_rgba _ _ h4]

/-! ### Claim theorems -/

/-- C1 (amended): for every RGBA pixel buffer, every `k` in `[1,4]`, and every
NONEMPTY byte payload `P` with fewer than `2^32` bytes satisfying
`len(P)*8 + 32 ≤ capacityBits(buffer, k) = pixelCount*3*k`, decoding the
result of encoding `P` with the same `k` returns exactly `P`. -/
theorem C1_round_trip (data msg : List Nat) (k : Nat)
    (hk1 : 1 ≤ k) (hk4 : k ≤ 4) (h4 : data.length % 4 = 0)
    (hbytes : ∀ c ∈ msg, c < 256) (hpos : 1 ≤ msg.length) (hlt : msg.length < 2 ^ 32)
    (hcap : msg.length * 8 + 32 ≤ data.length / 4 * 3 * k) :
    decodeLSB (encodeLSB data msg k).data k = .ok msg := by
  have hfb : (fullBinary msg).length = 32 + 8 * msg.length := fullBinary_length msg hlt hbytes
  have hencdef : (encodeLSB data msg k).data = encodeLoop k data 0 (fullBinary msg) := rfl
  have hlen : (encodeLoop k data 0 (fullBinary msg)).length = data.length :=
    encodeLoop_length k data 0 _
  have hElen : (extractAll k (encodeLoop k data 0 (fullBinary msg)) 0).length =
      data.length / 4 * 3 * k := by
    rw [extractAll_length k hk1, hlen, nonAlphaCount_rgba _ _ h4]
  have hpre : (extractAll k (encodeLoop k data 0 (fullBinary msg)) 0).take
      (32 + 8 * msg.length) = fullBinary msg := by
    rw [← hfb]
    exact extract_encode k hk1 data 0 _ (by rw [hfb, nonAlphaCount_rgba _ _ h4]; omega)
  have hpad32 : (padStartB 32 (natToBin msg.length)).length = 32 := by
    rw [padStartB_length]
    exact Nat.max_eq_left (natToBin_length_le _ 32 (by omega) hlt)
  have hE32 : (extractAll k (encodeLoop k data 0 (fullBinary msg)) 0).take 32 =
      padStartB 32 (natToBin msg.length) := by
    have h1 : (extractAll k (encodeLoop k data 0 (fullBinary msg)) 0).take 32 =
        ((extractAll k (encodeLoop k data 0 (fullBinary msg)) 0).take
          (32 + 8 * msg.length)).take 32 := by
      rw [List.take_take]
      congr 1
      omega
    rw [h1, hpre, fullBinary]
    exact List.take_left' hpad32
  have hval : bitsToNat ((extractAll k (encodeLoop k data 0 (fullBinary msg)) 0).take 32) =
      msg.length := by
    rw [hE32, bitsToNat_padStartB, natToBin_val]
  rw [hencdef, decodeLSB_eq_spec]
  simp only [decodeSpec, hlen, hval]
  rw [if_neg (by omega)]
  have hhdr : ¬ (msg.length = 0 ∨
      (data.length / 4 * 3 * k - 32) / 8 < msg.length) := by
    push_neg
    refine ⟨by omega, ?_⟩
    rw [Nat.le_div_iff_mul_le (by omega)]
    omega
  rw [if_neg hhdr, if_neg (by rw [hElen]; omega)]
  have h8 : 32 + msg.length * 8 = 32 + 8 * msg.length := by ring
  rw [h8, hpre, fullBinary, List.drop_left' hpad32, binToString_stringToBin msg hbytes]

/-- C1 counterexample: the claim as stated quantifies over ALL payloads
within capacity, but for the empty payload (which satisfies
`0*8 + 32 ≤ 48 = capacityBits` on a 4x4 zero RGBA buffer with `k = 1`)
decoding the encoded buffer fails with `invalidHeader` instead of returning
the payload. -/
theorem C1_cex :
    0 * 8 + 32 ≤ (List.replicate (64 : Nat) (0 : Nat)).length / 4 * 3 * 1 ∧
    decodeLSB (encodeLSB (List.replicate 64 0) [] 1).data 1 ≠ Except.ok [] := by
  refine ⟨by decide, fun h => ?_⟩
  rw [show decodeLSB (encodeLSB (List.replicate 64 0) [] 1).data 1 =
    Except.error DecodeError.invalidHeader from rfl] at h
  exact Except.noConfusion h

/-- C1 witness: a concrete round trip through the amended theorem. -/
theorem C1_witness :
    decodeLSB (encodeLSB (List.replicate 64 0) [65] 1).data 1 = Except.ok [65] :=
  C1_round_trip (List.replicate 64 0) [65] 1 (by decide) (by decide) (by decide)
    (by decide) (by decide) (by decide) (by decide)

/-- C2 (amended): `stringToBin` renders each character as
`charCodeAt(0).toString(2).padStart(8, '0')`, which is exactly 8 bits —
the code point MSB first — only when the code point is below 256 (`padStart`
never truncates); for messages of such characters the embedded bit-sequence
has length exactly `32 + 8*len(message)`. -/
theorem C2_frame_length (msg : List Nat) (hc : ∀ c ∈ msg, c < 256)
    (hlt : msg.length < 2 ^ 32) :
    (stringToBin msg).length = 8 * msg.length ∧
    (fullBinary msg).length = 32 + 8 * msg.length :=
  ⟨stringToBin_length msg hc, fullBinary_length msg hlt hc⟩

/-- C2 counterexample: a character of code point 256 contributes 9 bits, not
8 (the source never truncates to 8 bits), so the embedded bit-sequence for
the one-character message `[256]` has 41 bits, not `32 + 8*1 = 40`. -/
theorem C2_cex : ¬ ((fullBinary [256]).length = 32 + 8 * ([256] : List Nat).length) := by
  decide

/-- C2 witness. -/
theorem C2_witness :
    (stringToBin [72, 105]).length = 8 * ([72, 105] : List Nat).length ∧
    (fullBinary [72, 105]).length = 32 + 8 * ([72, 105] : List Nat).length :=
  C2_frame_length [72, 105] (by decide) (by decide)

/-- C3: the capacity helper of `App.tsx` computes
`max(0, floor(width*height*3*k/8) - 4)` (stated with the floor made explicit
as natural division), and `capacityBytes 20 20 1 = 146`. -/
theorem C3_capacity_formula :
    (∀ w h k : Nat, capacityBytes w h k = max 0 (((w * h * 3 * k / 8 : Nat) : Int) - 4)) ∧
    capacityBytes 20 20 1 = 146 := by
  constructor
  · intro w h k
    simp only [capacityBytes]
    omega
  · decide

/-- C4 (amended): the capacity reported by `encodeLSB` is the RAW usable byte
count `floor(pixelCount*3*k/8)` — it does not subtract the 4 header bytes and
never applies a `max` with 0 — and it is independent of the payload embedded. -/
theorem C4_capacity (data msg msg2 : List Nat) (k : Nat) (h4 : data.length % 4 = 0) :
    (encodeLSB data msg k).capacity = data.length / 4 * 3 * k / 8 ∧
    (encodeLSB data msg k).capacity = (encodeLSB data msg2 k).capacity := by
  constructor
  · show data.length * 3 / 4 * k / 8 = data.length / 4 * 3 * k / 8
    have h : data.length * 3 / 4 = data.length / 4 * 3 := by omega
    rw [h]
  · rfl

/-- C4 counterexample: on a 4x4 RGBA buffer with `k = 1` the claimed
header-adjusted capacity is `max(0, floor(16*3*1/8) - 4) = 2`, but
`encodeLSB` reports 6. -/
theorem C4_cex :
    (encodeLSB (List.replicate 64 0) [] 1).capacity = 6 ∧
    ¬ ((encodeLSB (List.replicate 64 0) [] 1).capacity = 2) := by
  refine ⟨by decide, by decide⟩

/-- C4 witness. -/
theorem C4_witness :
    (encodeLSB (List.replicate 64 0) [65] 1).capacity =
      (List.replicate (64 : Nat) (0 : Nat)).length / 4 * 3 * 1 / 8 ∧
    (encodeLSB (List.replicate 64 0) [65] 1).capacity =
      (encodeLSB (List.replicate 64 0) [66, 67] 1).capacity :=
  C4_capacity (List.replicate 64 0) [65] [66, 67] 1 (by decide)

/-- C5: `encodeLSB` changes at most the low `k` bits of the non-alpha bytes
that carry the frame: alpha bytes (`(i+1) % 4 == 0`) are returned unchanged,
the upper `8 - k` bits of every non-alpha byte are unchanged (stated as
equality of the quotients by `2^k`, i.e. of the bytes with their low `k` bits
cleared), and every byte reached only after the whole header+payload
bit-sequence has been consumed is unchanged. -/
theorem C5_frame_effect (data msg : List Nat) (k : Nat)
    (h256 : ∀ b ∈ data, b < 256) (hk1 : 1 ≤ k) (hk4 : k ≤ 4) :
    (∀ i, (i + 1) % 4 = 0 → ((encodeLSB data msg k).data).getD i 0 = data.getD i 0)
    ∧ (∀ i, (i + 1) % 4 ≠ 0 →
        ((encodeLSB data msg k).data).getD i 0 / 2 ^ k = data.getD i 0 / 2 ^ k)
    ∧ (∀ i, (fullBinary msg).length ≤ k * nonAlphaCount 0 i →
        ((encodeLSB data msg k).data).getD i 0 = data.getD i 0) :=
  ⟨fun i hi => (encodeLoop_getD k data 0 (fullBinary msg) i h256).1 (by omega),
    fun i _ => (encodeLoop_getD k data 0 (fullBinary msg) i h256).2.1,
    fun i hi => (encodeLoop_getD k data 0 (fullBinary msg) i h256).2.2 hi⟩

/-- C5 witness: a concrete buffer of bytes `9`, payload `"A"`, `k = 2`:
alpha byte 3 unchanged, upper 6 bits of byte 0 unchanged, byte 40 (past the
40-bit frame) unchanged. -/
theorem C5_witness :
    ((encodeLSB (List.replicate 64 9) [65] 2).data).getD 3 0 =
      (List.replicate (64 : Nat) (9 : Nat)).getD 3 0
    ∧ ((encodeLSB (List.replicate 64 9) [65] 2).data).getD 0 0 / 2 ^ 2 =
      (List.replicate (64 : Nat) (9 : Nat)).getD 0 0 / 2 ^ 2
    ∧ ((encodeLSB (List.replicate 64 9) [65] 2).data).getD 40 0 =
      (List.replicate (64 : Nat) (9 : Nat)).getD 40 0 :=
  ⟨(C5_frame_effect (List.replicate 64 9) [65] 2 (by decide) (by decide) (by decide)).1
      3 (by decide),
    (C5_frame_effect (List.replicate 64 9) [65] 2 (by decide) (by decide) (by decide)).2.1
      0 (by decide),
    (C5_frame_effect (List.replicate 64 9) [65] 2 (by decide) (by decide) (by decide)).2.2
      40 (by decide)⟩

/-- C6: `decodeLSB` fails with `tooSmall` exactly when the total extractable
bits `pixelCount * 3 * k` are fewer than 32; the condition depends only on the
buffer length (never on its contents), which is the observable content of
"before any bit extraction or header parse". -/
theorem C6_tooSmall (data : List Nat) (k : Nat) (h4 : data.length % 4 = 0) :
    decodeLSB data k = .error .tooSmall ↔ data.length / 4 * 3 * k < 32 := by
  rw [decodeLSB_eq_spec]
  simp only [decodeSpec]
  constructor
  · intro h
    by_contra hc
    rw [if_neg hc] at h
    by_cases h2 : bitsToNat ((extractAll k data 0).take 32) = 0 ∨
        (data.length / 4 * 3 * k - 32) / 8 < bitsToNat ((extractAll k data 0).take 32)
    · rw [if_pos h2] at h
      exact DecodeError.noConfusion (Except.error.inj h)
    · rw [if_neg h2] at h
      by_cases h3 : (extractAll k data 0).length <
          32 + bitsToNat ((extractAll k data 0).take 32) * 8
      · rw [if_pos h3] at h
        exact DecodeError.noConfusion (Except.error.inj h)
      · rw [if_neg h3] at h
        exact Except.noConfusion h
  · intro h
    rw [if_pos h]

/-- C6 witness: an 8-pixel buffer offers only 24 bits with `k = 1`. -/
theorem C6_witness : decodeLSB (List.replicate 32 0) 1 = .error .tooSmall :=
  (C6_tooSmall (List.replicate 32 0) 1 (by decide)).mpr (by decide)

/-- C7: once the buffer passes the size guard, `decodeLSB` fails with
`invalidHeader` exactly when the 32-bit header parsed from the extracted bits
is 0 or exceeds `maxBytes = floor((totalBits - 32) / 8)` (the `NaN` case of
the source is unreachable: the parsed header is always a number). -/
theorem C7_invalidHeader (data : List Nat) (k : Nat) (h4 : data.length % 4 = 0)
    (hT : 32 ≤ data.length / 4 * 3 * k) :
    decodeLSB data k = .error .invalidHeader ↔
      (bitsToNat ((extractAll k data 0).take 32) = 0 ∨
        (data.length / 4 * 3 * k - 32) / 8 < bitsToNat ((extractAll k data 0).take 32)) := by
  rw [decodeLSB_eq_spec]
  simp only [decodeSpec]
  rw [if_neg (by omega)]
  constructor
  · intro h
    by_contra hc
    rw [if_neg hc] at h
    by_cases h3 : (extractAll k data 0).length <
        32 + bitsToNat ((extractAll k data 0).take 32) * 8
    · rw [if_pos h3] at h
      exact DecodeError.noConfusion (Except.error.inj h)
    · rw [if_neg h3] at h
      exact Except.noConfusion h
  · intro h
    rw [if_pos h]

/-- C7 witness: an all-zero buffer parses a zero header. -/
theorem C7_witness : decodeLSB (List.replicate 64 0) 1 = .error .invalidHeader :=
  (C7_invalidHeader (List.replicate 64 0) 1 (by decide) (by decide)).mpr (by decide)

/-- C8: with a validated header value `L`, `decodeLSB` fails with `truncated`
exactly when fewer than `32 + L*8` bits can be extracted from the non-alpha
bytes (on a whole-pixel buffer this never happens, since validation already
bounds `L` by the remaining capacity); otherwise it returns exactly the `L`
characters taken from bits `[32, 32 + L*8)`. -/
theorem C8_success (data : List Nat) (k : Nat) (h4 : data.length % 4 = 0) (hk1 : 1 ≤ k)
    (hT : 32 ≤ data.length / 4 * 3 * k)
    (hpos : bitsToNat ((extractAll k data 0).take 32) ≠ 0)
    (hmax : bitsToNat ((extractAll k data 0).take 32) ≤ (data.length / 4 * 3 * k - 32) / 8) :
    (decodeLSB data k = .error .truncated ↔
      (extractAll k data 0).length < 32 + bitsToNat ((extractAll k data 0).take 32) * 8)
    ∧ decodeLSB data k = .ok (binToString (((extractAll k data 0).take
        (32 + bitsToNat ((extractAll k data 0).take 32) * 8)).drop 32))
    ∧ (binToString (((extractAll k data 0).take
        (32 + bitsToNat ((extractAll k data 0).take 32) * 8)).drop 32)).length =
      bitsToNat ((extractAll k data 0).take 32) := by
  have hElen : (extractAll k data 0).length = data.length / 4 * 3 * k :=
    extractAll_length_rgba data k hk1 h4
  have hL8 : bitsToNat ((extractAll k data 0).take 32) * 8 ≤ data.length / 4 * 3 * k - 32 :=
    (Nat.le_div_iff_mul_le (by omega)).mp hmax
  have hnotrunc : ¬ ((extractAll k data 0).length <
      32 + bitsToNat ((extractAll k data 0).take 32) * 8) := by
    rw [hElen]
    omega
  have hdec : decodeLSB data k = .ok (binToString (((extractAll k data 0).take
      (32 + bitsToNat ((extractAll k data 0).take 32) * 8)).drop 32)) := by
    rw [decodeLSB_eq_spec]
    simp only [decodeSpec]
    rw [if_neg (by omega), if_neg (by push_neg; exact ⟨hpos, hmax⟩), if_neg hnotrunc]
  refine ⟨⟨fun h => absurd (hdec ▸ h) (fun hh => Except.noConfusion hh),
      fun h => absurd h hnotrunc⟩, hdec, ?_⟩
  apply binToString_length_eight
  rw [List.length_drop, List.length_take]
  omega

/-- C8 witness: decoding a buffer that frames the one-byte payload `"B"`. -/
theorem C8_witness :
    decodeLSB (encodeLSB (List.replicate 64 0) [66] 1).data 1 = Except.ok [66] :=
  ((C8_success (encodeLSB (List.replicate 64 0) [66] 1).data 1 (by decide) (by decide)
    (by decide) (by decide) (by decide)).2.1).trans (by rfl)

/-- C9: `encodeLSB` raises no capacity error and never writes past the end of
the buffer (the output has exactly the input's length, whatever the payload),
and in the concrete overflow case — all-zero 4x4 RGBA buffer, `k = 1`,
10-byte payload against capacity 2 — decoding the encoded buffer fails with
`invalidHeader` (the header value 10 exceeds `maxBytes = 2`). -/
theorem C9_silent_truncation :
    (∀ (data msg : List Nat) (k : Nat), ((encodeLSB data msg k).data).length = data.length)
    ∧ decodeLSB (encodeLSB (List.replicate 64 0) (List.replicate 10 65) 1).data 1 =
        .error .invalidHeader :=
  ⟨fun data _ k => encodeLoop_length k data 0 _, by rfl⟩

/-- C10: encoding the empty payload embeds the all-zero 32-bit header
(`fullBinary [] = 32 zero bits`), and decoding any such buffer (large enough
to pass the size guard) always fails with `invalidHeader`, because the parsed
length 0 is rejected; the empty message is never recoverable. -/
theorem C10_empty_payload (data : List Nat) (k : Nat) (h4 : data.length % 4 = 0)
    (hk1 : 1 ≤ k) (hT : 32 ≤ data.length / 4 * 3 * k) :
    fullBinary [] = List.replicate 32 false ∧
    decodeLSB (encodeLSB data [] k).data k = .error .invalidHeader := by
  have hfb : fullBinary [] = List.replicate 32 false := by decide
  refine ⟨hfb, ?_⟩
  have hlen : (encodeLoop k data 0 (fullBinary [])).length = data.length :=
    encodeLoop_length k data 0 _
  have hpre : (extractAll k (encodeLoop k data 0 (fullBinary [])) 0).take 32 =
      List.replicate 32 false := by
    have h32 : (fullBinary []).length = 32 := by rw [hfb]; simp
    conv_lhs => rw [← h32]
    rw [extract_encode k hk1 data 0 _ (by rw [h32, nonAlphaCount_rgba _ _ h4]; omega), hfb]
  have hval : bitsToNat ((extractAll k (encodeLoop k data 0 (fullBinary [])) 0).take 32) = 0 := by
    rw [hpre, bitsToNat_replicate_false]
  rw [show (encodeLSB data [] k).data = encodeLoop k data 0 (fullBinary []) from rfl,
    decodeLSB_eq_spec]
  simp only [decodeSpec, hlen]
  rw [if_neg (by omega), if_pos (Or.inl hval)]

/-- C10 witness. -/
theorem C10_witness :
    fullBinary [] = List.replicate 32 false ∧
    decodeLSB (encodeLSB (List.replicate 64 0) [] 1).data 1 = .error .invalidHeader :=
  C10_empty_payload (List.replicate 64 0) 1 (by decide) (by decide) (by decide)

end Stego
